import Mathlib

/-!
Verification development for the Finopoly console game
(`src/streamlit_app.py`).  The Python classes `Project`,
`FinancingOption`, `Event`, `Tile`, `Player` and the engine `Finopoly`
are embedded shallowly: floats become rationals, object references
become indices into explicit stores, console input becomes explicit
parameters, and `random` draws become explicit arguments.
-/

namespace Finopoly

/-- Embeds the Python class `Project`.  The mutable fields `owner` and
`purchase_round` start out as `None`; `owner` holds the owning player's
name (the source stores the `Player` object and only ever compares it
with `None` or prints its name). -/
structure Project where
  name : String
  cost : ℚ
  life : ℕ
  annual_cash_flow : ℚ
  real_option : String
  risk_level : String
  user_gain : ℚ
  owner : Option String
  purchase_round : Option ℕ
deriving DecidableEq

/-- Stands in for an out-of-range list access on the project store; the
source would raise `IndexError` there, and no reachable call does. -/
def default_project : Project :=
  ⟨"", 0, 0, 0, "", "", 0, none, none⟩

/-- Embeds `Project.calculate_npv`: `npv = -cost` followed by
`for year in range(1, life+1): npv += annual_cash_flow/(1+rate)**year`. -/
def Project.calculate_npv (p : Project) (discount_rate : ℚ) : ℚ :=
  (List.range p.life).foldl
    (fun npv year => npv + p.annual_cash_flow / (1 + discount_rate) ^ (year + 1))
    (-p.cost)

/-- Embeds the Python class `FinancingOption` (all-string metadata plus
the integer `max_amount`). -/
structure FinancingOption where
  name : String
  description : String
  max_amount : ℤ
  conditions : String
  impact : String
deriving DecidableEq

def default_financing : FinancingOption := ⟨"", "", 0, "", ""⟩

/-- Embeds the Python class `Event`. -/
structure Event where
  name : String
  description : String
  impact : String
deriving DecidableEq

def default_event : Event := ⟨"", "", ""⟩

/-- Embeds the Python class `Player`.  `projects` holds indices into the
game's project store (the source holds aliased `Project` objects);
`financing_history` records `(option name, amount)` pairs. -/
structure Player where
  name : String
  cash : ℚ
  users : ℚ
  position : ℕ
  projects : List ℕ
  financing_history : List (String × ℚ)
  debt : ℚ
  equity_dilution : ℚ
  vc_funding_used : Bool
  ipo_done : Bool
  skip_next_turn : Bool
deriving DecidableEq

/-- Embeds `Player.__init__` with the default `starting_cash=100`. -/
def init_player (name : String) : Player :=
  ⟨name, 100, 1, 0, [], [], 0, 0, false, false, false⟩

def default_player : Player := init_player ""

/-- Embeds the inner loop of `Player.calculate_total_npv`:
`npv = 0` then `for year in range(1, remaining_life+1):
npv += annual_cash_flow/(1+0.10)**year`.  A non-positive
`remaining_life` yields an empty loop. -/
def remaining_npv (cf : ℚ) (remaining_life : ℤ) : ℚ :=
  (List.range remaining_life.toNat).foldl
    (fun npv year => npv + cf / (1 + 0.10) ^ (year + 1)) 0

/-- Embeds `Player.calculate_total_npv(current_round)`.  The source
reads `project.purchase_round` (always set for owned projects; `None`
would raise in Python, hence the harmless `getD 0`). -/
def Player.calculate_total_npv (pl : Player) (store : List Project)
    (current_round : ℕ) : ℚ :=
  let total_npv := pl.projects.foldl
    (fun total_npv idx =>
      let project := store.getD idx default_project
      let remaining_life : ℤ :=
        (project.life : ℤ) - ((current_round : ℤ) - (project.purchase_round.getD 0 : ℤ))
      if 0 < remaining_life then
        total_npv + remaining_npv project.annual_cash_flow remaining_life
      else total_npv)
    0
  let total_npv := total_npv * (1 - pl.equity_dilution)
  if pl.ipo_done then total_npv * 0.7 else total_npv

/-- Embeds `Player.can_afford`. -/
def Player.can_afford (p : Player) (amount : ℚ) : Bool :=
  decide (amount ≤ p.cash)

/-- Embeds `Player.pay`: returns the success flag together with the
(possibly unchanged) player. -/
def Player.pay (p : Player) (amount : ℚ) : Bool × Player :=
  if p.can_afford amount then (true, { p with cash := p.cash - amount })
  else (false, p)

/-- Embeds `Player.receive`. -/
def Player.receive (p : Player) (amount : ℚ) : Player :=
  { p with cash := p.cash + amount }

/-- Embeds `Player.add_users`. -/
def Player.add_users (p : Player) (count : ℚ) : Player :=
  { p with users := p.users + count }

/-- Embeds `Player.lose_users` (`users = max(0, users - count)`). -/
def Player.lose_users (p : Player) (count : ℚ) : Player :=
  { p with users := max 0 (p.users - count) }

/-- Embeds `Player.add_financing`: appends to the history and applies
the name-keyed permanent state change. -/
def Player.add_financing (p : Player) (financing : FinancingOption) (amount : ℚ) : Player :=
  let p := { p with financing_history := p.financing_history ++ [(financing.name, amount)] }
  if financing.name = "Debt" then
    { p with debt := p.debt + amount }
  else if financing.name = "VC Funding" then
    { p with vc_funding_used := true, equity_dilution := p.equity_dilution + 0.10 }
  else if financing.name = "Equity" then
    { p with equity_dilution := p.equity_dilution + 0.20 }
  else if financing.name = "IPO" then
    { p with ipo_done := true }
  else p

/-- Embeds `Player.collect_project_revenues` (returns the collected
total together with the updated player). -/
def Player.collect_project_revenues (p : Player) (store : List Project) : ℚ × Player :=
  let total_revenue := p.projects.foldl
    (fun total_revenue idx => total_revenue + (store.getD idx default_project).annual_cash_flow) 0
  (total_revenue, { p with cash := p.cash + total_revenue })

/-- Embeds `Finopoly.create_projects` (the fixed list of eight project
cards). -/
def finopoly_projects : List Project :=
  [⟨"Expand to Asia Market", 50, 3, 20, "Expand", "High", 2, none, none⟩,
   ⟨"Referral Program", 20, 3, 12, "Scale", "Low", 1.5, none, none⟩,
   ⟨"Retail Partnership", 40, 3, 18, "User Trust", "High", 1.8, none, none⟩,
   ⟨"AI Fraud Prevention", 30, 3, 15, "Efficiency Gain", "Medium", 1, none, none⟩,
   ⟨"Product Launch", 35, 2, 25, "Rebrand", "Medium", 2.5, none, none⟩,
   ⟨"Mobile App Redesign", 25, 2, 15, "User Experience", "Low", 1.2, none, none⟩,
   ⟨"Blockchain Integration", 45, 3, 17, "Security", "High", 1.5, none, none⟩,
   ⟨"Customer Support AI", 30, 2, 18, "Efficiency", "Medium", 0.8, none, none⟩]

/-- Embeds `Finopoly.create_financing_options`. -/
def financing_options : List FinancingOption :=
  [⟨"Debt", "Loan at 6 percent annual interest", 50, "Max 50M per round", "6 percent annual interest"⟩,
   ⟨"VC Funding", "Raise 40M but lose 10 percent NPV", 40, "Once per game", "10 percent NPV dilution"⟩,
   ⟨"Equity", "Raise capital but dilute 20 percent NPV", 60, "Once per round", "20 percent NPV dilution"⟩,
   ⟨"IPO", "Raise 100M but lose 30 percent of final NPV", 100, "Only in Round 4 or 5", "30 percent NPV penalty"⟩]

/-- Embeds `Finopoly.create_events`. -/
def finopoly_events : List Event :=
  [⟨"Economic Downturn", "Economic downturn affects revenue", "15 percent revenue loss this round"⟩,
   ⟨"Cybersecurity Breach", "Security breach costs money", "15M cash loss unless secured"⟩,
   ⟨"Data Leak Scandal", "Data leak affects user trust", "Lose 1M users"⟩,
   ⟨"Regulatory Fine", "Regulatory issues lead to fine", "10M cash loss if compliance project missing"⟩,
   ⟨"System Crash", "Major system failure", "Lose 1 turn"⟩,
   ⟨"Market Expansion", "New market opportunity", "Gain 0.5M users"⟩,
   ⟨"Strategic Partnership", "New partnership opportunity", "Gain 10M cash"⟩,
   ⟨"Talent Acquisition", "Key talent joins company", "Next project costs 10 percent less"⟩]

/-- Tile categories (the source uses the strings "Investment",
"Financing", "Event", "Neutral", "Special"). -/
inductive TileType
  | Investment
  | Financing
  | Event
  | Neutral
  | Special
deriving DecidableEq

/-- The payload of `Tile.action`: an aliased project (stored here as an
index into the project store) or the special-mode string tag. -/
inductive TileAction
  | proj (idx : ℕ)
  | tag (s : String)
deriving DecidableEq

/-- Embeds the Python class `Tile`. -/
structure Tile where
  position : ℕ
  name : String
  tile_type : TileType
  action : Option TileAction
deriving DecidableEq

/-- One pass of `board[pos] = Tile(...)` assignments: each write sets a
slot of the partially built board. -/
def write_tiles (b : List (Option Tile)) (ws : List (ℕ × Tile)) : List (Option Tile) :=
  ws.foldl (fun b w => b.set w.1 (some w.2)) b

/-- The `board[pos] = Tile(...)` assignments of the Investment loop of
`create_board`: tile number `i` carries the project at index
`i % len(projects)`. -/
def investment_writes (positions : List ℕ) : List (ℕ × Tile) :=
  (positions.take 8).enum.map (fun ip =>
    let k := ip.1 % finopoly_projects.length
    let project := finopoly_projects.getD k default_project
    (ip.2, ⟨ip.2, "Investment: " ++ project.name, TileType.Investment, some (TileAction.proj k)⟩))

/-- The Financing-loop assignments of `create_board`. -/
def financing_writes (positions : List ℕ) : List (ℕ × Tile) :=
  ((positions.drop 8).take 2).map (fun pos =>
    (pos, ⟨pos, "Financing Opportunity", TileType.Financing, none⟩))

/-- The Event-loop assignments of `create_board`. -/
def event_writes (positions : List ℕ) : List (ℕ × Tile) :=
  ((positions.drop 10).take 4).map (fun pos =>
    (pos, ⟨pos, "Market Event", TileType.Event, none⟩))

/-- The Neutral-loop assignments of `create_board`. -/
def neutral_writes (positions : List ℕ) : List (ℕ × Tile) :=
  ((positions.drop 14).take 4).map (fun pos =>
    (pos, ⟨pos, "Revenue Collection", TileType.Neutral, none⟩))

def special_tile_ipo (pos : ℕ) : Tile :=
  ⟨pos, "IPO Opportunity", TileType.Special, some (TileAction.tag "IPO")⟩

def special_tile_strategy (pos : ℕ) : Tile :=
  ⟨pos, "Strategic Decision", TileType.Special, some (TileAction.tag "Strategy")⟩

/-- Embeds `Finopoly.create_board`.  `positions` is the result of
`random.shuffle(list(range(20)))`, passed in explicitly.  The slice
bounds are the running sums of the tile-type counts
(Investment 8, Financing 2, Event 4, Neutral 4, Special 2), so the
slices are `positions[:8]`, `[8:10]`, `[10:14]`, `[14:18]` and
`[18:]`.  The final two direct assignments
`board[special_positions[0]]` and `board[special_positions[1]]` would
raise `IndexError` if fewer than twenty positions were supplied; that
failure is modelled as `none`. -/
def create_board (positions : List ℕ) : Option (List (Option Tile)) :=
  match positions.drop 18 with
  | sp0 :: sp1 :: _ =>
    let board : List (Option Tile) := List.replicate 20 none
    let board := write_tiles board (investment_writes positions)
    let board := write_tiles board (financing_writes positions)
    let board := write_tiles board (event_writes positions)
    let board := write_tiles board (neutral_writes positions)
    let board := board.set sp0 (some (special_tile_ipo sp0))
    let board := board.set sp1 (some (special_tile_strategy sp1))
    some board
  | _ => none

/-- The debt-interest loop of `Finopoly.handle_end_of_round`, embedded
with an explicit iteration index and a fuel argument so the recursion is
structural.  The source iterates `for player in self.players` and calls
`self.players.remove(player)` on bankruptcy, so the cursor semantics of
the Python list iterator are replicated exactly: after processing index
`i` the loop continues at index `i+1` of the *current* list, whether or
not index `i` was just removed. -/
def interest_pass (fuel : ℕ) (ps : List Player) (i : ℕ) : List Player :=
  match fuel with
  | 0 => ps
  | fuel + 1 =>
    match ps.get? i with
    | none => ps
    | some player =>
      if 0 < player.debt then
        let interest := player.debt * 0.06
        if player.can_afford interest then
          interest_pass fuel (ps.set i { player with cash := player.cash - interest }) (i + 1)
        else
          interest_pass fuel (ps.eraseIdx i) (i + 1)
      else interest_pass fuel ps (i + 1)

/-- The player-list effect of `Finopoly.handle_end_of_round` (the rest
of that method only prints, increments the round and sets the game-over
flag).  A fuel of `ps.length` is exact: the cursor gains one position
per iteration and the list never grows. -/
def handle_end_of_round_players (ps : List Player) : List Player :=
  interest_pass ps.length ps 0

/-- Embeds one player's final score in `Finopoly.end_game`:
`npv*0.4 + users*0.3 + cash*0.1 + strategic_score` where
`strategic_score` starts at `0`, gains `10` on a completed IPO plus
`2` per owned project, and is then multiplied once by `0.2`. -/
def end_game_score (store : List Project) (p : Player) (current_round : ℕ) : ℚ :=
  let npv := p.calculate_total_npv store current_round
  let npv_score := npv * 0.4
  let users_score := p.users * 0.3
  let cash_score := p.cash * 0.1
  let strategic_score := ((if p.ipo_done then (10 : ℚ) else 0) + (p.projects.length : ℚ) * 2) * 0.2
  npv_score + users_score + cash_score + strategic_score

/-- Embeds the `final_scores` list built in `Finopoly.end_game`
(restricted to the player and the total score; the remaining tuple
components are display-only copies). -/
def final_scores (store : List Project) (players : List Player) (current_round : ℕ) :
    List (Player × ℚ) :=
  players.map (fun p => (p, end_game_score store p current_round))

/-- Embeds `final_scores.sort(key=lambda x: x[1], reverse=True)`:
a stable descending sort on the score component, after which
`end_game` crowns `final_scores[0][0]` the winner. -/
def rank_players (scores : List (Player × ℚ)) : List (Player × ℚ) :=
  scores.mergeSort (fun a b => decide (b.2 ≤ a.2))

/-- The game-state fields of the Python class `Finopoly` that the turn
and round logic reads or writes (`current_player_index` is bookkeeping
for prompts only; the fixed `financing_options` and `events` lists are
the global definitions above). -/
structure Game where
  players : List Player
  current_round : ℕ
  board : List (Option Tile)
  projects : List Project
  game_over : Bool
deriving DecidableEq

/-- The console input and random draws consumed by one call of
`Finopoly.play_turn`, gathered in one record: the die roll, the y/n
answer on an investment tile, the financing menu choice and typed
amount, the index of the event drawn by `random.choice`, the y/n answer
on the IPO tile, and the two numeric choices on the strategy tile.
Fields irrelevant to the tile actually landed on are ignored, and a
non-numeric console entry (caught `ValueError`) leaves the state
unchanged, exactly like the skip choices modelled here. -/
structure TurnInput where
  roll : ℕ
  investAccept : Bool
  financeChoice : ℤ
  financeAmount : ℤ
  eventIdx : ℕ
  ipoAccept : Bool
  stratProject : ℤ
  stratChoice : ℤ
deriving DecidableEq

def default_turn_input : TurnInput := ⟨1, false, 0, 0, 0, false, 0, 0⟩

/-- Replaces player `i` in the game state. -/
def set_player (g : Game) (i : ℕ) (p : Player) : Game :=
  { g with players := g.players.set i p }

/-- Embeds `Finopoly.handle_investment_tile` for the project attached
to the tile: no-op when owned or unaffordable or declined; otherwise
pay the cost, bind ownership and the purchase round, and grant the
user gain. -/
def handle_investment_tile (g : Game) (i : ℕ) (projIdx : ℕ) (accept : Bool) : Game :=
  let player := g.players.getD i default_player
  let project := g.projects.getD projIdx default_project
  if project.owner ≠ none then g
  else if ¬ player.can_afford project.cost then g
  else if accept then
    let paid := player.pay project.cost
    if paid.1 then
      let project := { project with owner := some player.name, purchase_round := some g.current_round }
      let player := { paid.2 with projects := paid.2.projects ++ [projIdx] }
      let player := player.add_users project.user_gain
      { g with players := g.players.set i player, projects := g.projects.set projIdx project }
    else g
  else g

/-- Embeds the option filter at the top of
`Finopoly.handle_financing_tile`: VC Funding is skipped once used and
IPO is skipped before round 4. -/
def available_options (p : Player) (current_round : ℕ) : List FinancingOption :=
  financing_options.filter (fun option =>
    !(option.name == "VC Funding" && p.vc_funding_used)
      && !(option.name == "IPO" && decide (current_round < 4)))

/-- Embeds `Finopoly.handle_financing_tile`: `choice` is the typed menu
number (`0` skips, out-of-range is rejected), `entered` is the typed
amount for the Debt/Equity branches, clamped by
`min(entered, max_amount)` exactly as in the source. -/
def handle_financing_tile (g : Game) (i : ℕ) (choice : ℤ) (entered : ℤ) : Game :=
  let player := g.players.getD i default_player
  let avail := available_options player g.current_round
  if avail = [] then g
  else if choice = 0 then g
  else if 1 ≤ choice ∧ choice ≤ (avail.length : ℤ) then
    let selected := avail.getD (choice - 1).toNat default_financing
    if selected.name = "Debt" then
      let amount := min entered selected.max_amount
      set_player g i ((player.receive (amount : ℚ)).add_financing selected (amount : ℚ))
    else if selected.name = "VC Funding" then
      set_player g i ((player.receive (selected.max_amount : ℚ)).add_financing selected (selected.max_amount : ℚ))
    else if selected.name = "Equity" then
      let amount := min entered selected.max_amount
      set_player g i ((player.receive (amount : ℚ)).add_financing selected (amount : ℚ))
    else if selected.name = "IPO" then
      set_player g i ((player.receive (selected.max_amount : ℚ)).add_financing selected (selected.max_amount : ℚ))
    else g
  else g

/-- Embeds `Finopoly.handle_event_tile` for the event at `eventIdx`
(the source draws it with `random.choice(self.events)`).  The
"Talent Acquisition" branch only prints, so it is the identity. -/
def handle_event_tile (g : Game) (i : ℕ) (eventIdx : ℕ) : Game :=
  let player := g.players.getD i default_player
  let event := finopoly_events.getD eventIdx default_event
  if event.name = "Economic Downturn" then
    let revenue_reduction :=
      (player.projects.foldl
        (fun s idx => s + (g.projects.getD idx default_project).annual_cash_flow) 0) * 0.15
    set_player g i { player with cash := player.cash - revenue_reduction }
  else if event.name = "Cybersecurity Breach" then
    let has_security := player.projects.any (fun idx =>
      let n := (g.projects.getD idx default_project).name
      n == "AI Fraud Prevention" || n == "Blockchain Integration")
    if has_security then g
    else set_player g i { player with cash := player.cash - 15 }
  else if event.name = "Data Leak Scandal" then
    set_player g i (player.lose_users 1)
  else if event.name = "Regulatory Fine" then
    let has_compliance := player.projects.any (fun idx =>
      (g.projects.getD idx default_project).name == "AI Fraud Prevention")
    if has_compliance then g
    else set_player g i { player with cash := player.cash - 10 }
  else if event.name = "System Crash" then
    set_player g i { player with skip_next_turn := true }
  else if event.name = "Market Expansion" then
    set_player g i (player.add_users 0.5)
  else if event.name = "Strategic Partnership" then
    set_player g i (player.receive 10)
  else g

/-- Embeds `Finopoly.handle_neutral_tile` (unconditional revenue
collection on every landing). -/
def handle_neutral_tile (g : Game) (i : ℕ) : Game :=
  let player := g.players.getD i default_player
  set_player g i (player.collect_project_revenues g.projects).2

/-- Embeds `Finopoly.handle_special_tile` for the tag carried by the
tile (`"IPO"` or `"Strategy"`).  `stratProject` and `stratChoice` are
the two typed menu numbers of the strategy branch. -/
def handle_special_tile (g : Game) (i : ℕ) (tag : String) (ipoAccept : Bool)
    (stratProject : ℤ) (stratChoice : ℤ) : Game :=
  let player := g.players.getD i default_player
  if tag = "IPO" then
    if 4 ≤ g.current_round ∧ player.ipo_done = false then
      if ipoAccept then
        set_player g i { (player.receive 100) with ipo_done := true }
      else g
    else g
  else if tag = "Strategy" then
    if player.projects = [] then g
    else if stratProject = 0 then g
    else if 1 ≤ stratProject ∧ stratProject ≤ (player.projects.length : ℤ) then
      let selIdx := player.projects.getD (stratProject - 1).toNat 0
      let selected := g.projects.getD selIdx default_project
      if stratChoice = 1 then
        if player.can_afford 20 then
          let paid := player.pay 20
          { g with players := g.players.set i paid.2,
                   projects := g.projects.set selIdx
                     { selected with annual_cash_flow := selected.annual_cash_flow * 1.5 } }
        else g
      else if stratChoice = 2 then
        if player.can_afford 15 then
          let paid := player.pay 15
          { g with players := g.players.set i paid.2,
                   projects := g.projects.set selIdx
                     { selected with annual_cash_flow := selected.annual_cash_flow * 1.2,
                                     life := selected.life + 1 } }
        else g
      else if stratChoice = 3 then
        let recovery := selected.cost * 0.5
        let player := player.receive recovery
        let player := { player with projects := player.projects.eraseIdx (stratProject - 1).toNat }
        { g with players := g.players.set i player,
                 projects := g.projects.set selIdx { selected with owner := none } }
      else g
    else g
  else g

/-- Embeds `Finopoly.play_turn` for the player at index `i`: a skipped
turn clears the flag and does nothing else; otherwise the player moves
by the die roll modulo the board size and the landed tile's handler
runs.  A missing tile (impossible on any board built by
`create_board`) leaves the rest of the turn a no-op. -/
def play_turn (g : Game) (i : ℕ) (inp : TurnInput) : Game :=
  let player := g.players.getD i default_player
  if player.skip_next_turn then
    set_player g i { player with skip_next_turn := false }
  else
    let newPos := (player.position + inp.roll) % g.board.length
    let g := set_player g i { player with position := newPos }
    match g.board.getD newPos none with
    | none => g
    | some tile =>
      match tile.tile_type with
      | TileType.Investment =>
        match tile.action with
        | some (TileAction.proj k) => handle_investment_tile g i k inp.investAccept
        | _ => g
      | TileType.Financing => handle_financing_tile g i inp.financeChoice inp.financeAmount
      | TileType.Event => handle_event_tile g i inp.eventIdx
      | TileType.Neutral => handle_neutral_tile g i
      | TileType.Special =>
        match tile.action with
        | some (TileAction.tag s) => handle_special_tile g i s inp.ipoAccept inp.stratProject inp.stratChoice
        | _ => g

/-- Embeds one iteration of the `while not game_over` loop of
`Finopoly.play_game`: every player (in list order, the list does not
change during turns) takes a turn, then `handle_end_of_round` charges
debt interest, increments the round and ends the game after round 5. -/
def play_round (g : Game) (inputs : List TurnInput) : Game :=
  let n := g.players.length
  let g := (List.range n).foldl (fun g i => play_turn g i (inputs.getD i default_turn_input)) g
  let players := handle_end_of_round_players g.players
  let r := g.current_round + 1
  { g with players := players, current_round := r,
           game_over := if 5 < r then true else g.game_over }

/-- Embeds game construction in `Finopoly.play_game`: 3 to 5 named
players, each from `Player.__init__`, on a board built by
`create_board` from some shuffle of the twenty positions. -/
def init_game (names : List String) (b : List (Option Tile)) : Game :=
  { players := names.map init_player, current_round := 1, board := b,
    projects := finopoly_projects, game_over := false }

/-- The constraints the source guarantees for the values it feeds into
a turn: `random.randint(1, 6)` for the die and an in-range index for
`random.choice(self.events)`. -/
def ValidInput (inp : TurnInput) : Prop :=
  1 ≤ inp.roll ∧ inp.roll ≤ 6 ∧ inp.eventIdx < finopoly_events.length

/-- The game states at the start of a round: the freshly constructed
game, and the result of playing a full round from any such state while
the game is not over. -/
inductive Reachable : Game → Prop
  | start : ∀ (names : List String) (positions : List ℕ) (b : List (Option Tile)),
      3 ≤ names.length → names.length ≤ 5 →
      positions.Perm (List.range 20) →
      create_board positions = some b →
      Reachable (init_game names b)
  | step : ∀ (g : Game) (inputs : List TurnInput),
      Reachable g → g.game_over = false →
      inputs.length = g.players.length →
      (∀ inp ∈ inputs, ValidInput inp) →
      Reachable (play_round g inputs)

/-! ### Literal string comparisons

The source dispatches on option, event and tile-tag names; these
rewrites let `simp` settle the concrete comparisons that arise when
evaluating the embedding on concrete states. -/

theorem str_vc_ne_debt : (("VC Funding" : String) = "Debt") = False := by decide

theorem str_equity_ne_debt : (("Equity" : String) = "Debt") = False := by decide

theorem str_equity_ne_vc : (("Equity" : String) = "VC Funding") = False := by decide

theorem str_ipo_ne_debt : (("IPO" : String) = "Debt") = False := by decide

theorem str_ipo_ne_vc : (("IPO" : String) = "VC Funding") = False := by decide

theorem str_ipo_ne_equity : (("IPO" : String) = "Equity") = False := by decide

theorem strb_debt_vc : (("Debt" : String) == "VC Funding") = false := by decide

theorem strb_equity_vc : (("Equity" : String) == "VC Funding") = false := by decide

theorem strb_ipo_vc : (("IPO" : String) == "VC Funding") = false := by decide

theorem strb_debt_ipo : (("Debt" : String) == "IPO") = false := by decide

theorem strb_vc_ipo : (("VC Funding" : String) == "IPO") = false := by decide

theorem strb_equity_ipo : (("Equity" : String) == "IPO") = false := by decide

theorem strb_ipo_ipo : (("IPO" : String) == "IPO") = true := by decide

theorem strb_vc_vc : (("VC Funding" : String) == "VC Funding") = true := by decide

/-! ### Bridging lemmas between the source's accumulation loops and
closed-form sums -/

theorem foldl_add_eq (l : List ℕ) (v : ℕ → ℚ) (c : ℚ) :
    l.foldl (fun a x => a + v x) c = c + (l.map v).sum := by
  induction l generalizing c with
  | nil => simp
  | cons x xs ih => simp [List.foldl_cons, ih, add_assoc]

theorem foldl_range_eq_sum_Icc (n : ℕ) (v : ℕ → ℚ) (c : ℚ) :
    (List.range n).foldl (fun a y => a + v (y + 1)) c
      = c + ∑ t in Finset.Icc 1 n, v t := by
  induction n with
  | zero => simp
  | succ n ih =>
    rw [List.range_succ, List.foldl_append, ih]
    have : ∑ t in Finset.Icc 1 (n + 1), v t = (∑ t in Finset.Icc 1 n, v t) + v (n + 1) :=
      Finset.sum_Icc_succ_top (Nat.le_add_left 1 n) v
    simp [this, add_assoc]

/-- The discounted value of the remaining cash flows of one owned
project, written as the spec writes it: a sum over years 1 through
`remaining_life`, or zero once `remaining_life ≤ 0`. -/
def project_remaining_value (store : List Project) (current_round : ℕ) (idx : ℕ) : ℚ :=
  let project := store.getD idx default_project
  let remaining_life : ℤ :=
    (project.life : ℤ) - ((current_round : ℤ) - (project.purchase_round.getD 0 : ℤ))
  if 0 < remaining_life then
    ∑ t in Finset.Icc 1 remaining_life.toNat,
      project.annual_cash_flow / (1 + 0.10) ^ t
  else 0

/-- The undiluted portfolio value: sum of `project_remaining_value`
over the player's owned projects. -/
def base_npv_sum (store : List Project) (p : Player) (current_round : ℕ) : ℚ :=
  (p.projects.map (project_remaining_value store current_round)).sum

theorem remaining_npv_eq_sum (cf : ℚ) (remaining_life : ℤ) :
    remaining_npv cf remaining_life
      = ∑ t in Finset.Icc 1 remaining_life.toNat, cf / (1 + 0.10) ^ t := by
  unfold remaining_npv
  have h := foldl_range_eq_sum_Icc remaining_life.toNat (fun t => cf / (1 + 0.10) ^ t) 0
  simpa using h

theorem total_npv_eq (store : List Project) (p : Player) (current_round : ℕ) :
    p.calculate_total_npv store current_round
      = base_npv_sum store p current_round * (1 - p.equity_dilution)
          * (if p.ipo_done then 0.7 else 1) := by
  unfold Player.calculate_total_npv base_npv_sum
  have hstep : (fun (total_npv : ℚ) (idx : ℕ) =>
      let project := store.getD idx default_project
      let remaining_life : ℤ :=
        (project.life : ℤ) - ((current_round : ℤ) - (project.purchase_round.getD 0 : ℤ))
      if 0 < remaining_life then
        total_npv + remaining_npv project.annual_cash_flow remaining_life
      else total_npv)
      = fun total_npv idx => total_npv + project_remaining_value store current_round idx := by
    funext total_npv idx
    simp only [project_remaining_value, remaining_npv_eq_sum]
    split <;> simp
  rw [hstep, foldl_add_eq]
  by_cases h : p.ipo_done <;> simp [h]

/-- C2: `calculate_total_npv(current_round)` sums, over the player's
owned projects, the NPV of only the remaining life
(`life − (current_round − purchase_round)`), discounting cash flows
from year 1 at a 10 percent rate, with non-positive remaining lives
contributing nothing; the sum is multiplied by
`(1 − equity_dilution)` and, after a completed IPO, by `0.7`. -/
theorem c2_total_npv_formula (store : List Project) (p : Player) (current_round : ℕ) :
    p.calculate_total_npv store current_round
      = (p.projects.map (fun idx =>
          let project := store.getD idx default_project
          let remaining_life : ℤ :=
            (project.life : ℤ) - ((current_round : ℤ) - (project.purchase_round.getD 0 : ℤ))
          if 0 < remaining_life then
            ∑ t in Finset.Icc 1 remaining_life.toNat,
              project.annual_cash_flow / (1 + 0.10) ^ t
          else 0)).sum
        * (1 - p.equity_dilution) * (if p.ipo_done then 0.7 else 1) := by
  rw [total_npv_eq]
  rfl

/-- C6: at the default 10 percent discount rate, `calculate_npv`
returns `−cost + Σ_(t=1..life) cash_flow/(1.1)^t`; for the project
with cost 50, cash flow 20 and life 3 (the first project card) the
result is exactly `−50 + 20/1.1 + 20/1.1² + 20/1.1³`, which is within
0.01 of −0.26, and paying its cost from a cash of 100 succeeds and
leaves 50. -/
theorem c6_npv_formula :
    (∀ p : Project, p.calculate_npv 0.10
        = -p.cost + ∑ t in Finset.Icc 1 p.life, p.annual_cash_flow / (1 + 0.10) ^ t)
    ∧ (finopoly_projects.getD 0 default_project).calculate_npv 0.10
        = -50 + 20 / 1.1 + 20 / 1.1 ^ 2 + 20 / 1.1 ^ 3
    ∧ |(finopoly_projects.getD 0 default_project).calculate_npv 0.10 - (-0.26)| < 0.01
    ∧ (init_player "A").cash = 100
    ∧ (init_player "A").pay (finopoly_projects.getD 0 default_project).cost
        = (true, { init_player "A" with cash := 50 }) := by
  have hgen : ∀ p : Project, p.calculate_npv 0.10
      = -p.cost + ∑ t in Finset.Icc 1 p.life, p.annual_cash_flow / (1 + 0.10) ^ t := by
    intro p
    unfold Project.calculate_npv
    have h := foldl_range_eq_sum_Icc p.life (fun t => p.annual_cash_flow / (1 + 0.10) ^ t) (-p.cost)
    simpa using h
  have hproj : finopoly_projects.getD 0 default_project
      = ⟨"Expand to Asia Market", 50, 3, 20, "Expand", "High", 2, none, none⟩ := rfl
  have hIcc : Finset.Icc (1 : ℕ) 3 = {1, 2, 3} := rfl
  refine ⟨hgen, ?_, ?_, rfl, ?_⟩
  · rw [hgen, hproj]
    show (-50 : ℚ) + ∑ t in Finset.Icc 1 3, 20 / (1 + 0.10) ^ t
        = -50 + 20 / 1.1 + 20 / 1.1 ^ 2 + 20 / 1.1 ^ 3
    rw [hIcc]
    norm_num
  · rw [hgen, hproj]
    show |(-50 : ℚ) + ∑ t in Finset.Icc 1 3, 20 / (1 + 0.10) ^ t - (-0.26)| < 0.01
    rw [hIcc]
    norm_num
    rw [abs_of_nonneg (by norm_num)]
    norm_num
  · norm_num [init_player, Player.pay, Player.can_afford, finopoly_projects, default_project]

/-- C9: `pay(amount)` reports success exactly when `cash ≥ amount`,
in which case it deducts `amount`; otherwise it reports failure and
leaves the player entirely unchanged. -/
theorem c9_pay_guarded (p : Player) (amount : ℚ) :
    ((p.pay amount).1 = true ↔ amount ≤ p.cash)
    ∧ (amount ≤ p.cash → p.pay amount = (true, { p with cash := p.cash - amount }))
    ∧ (p.cash < amount → p.pay amount = (false, p)) := by
  unfold Player.pay Player.can_afford
  by_cases h : amount ≤ p.cash
  · simp [h]
  · simp [h, le_of_not_le h, not_le.mp h]

/-- Witness for C9 at a concrete player: paying 140 out of 100 fails
and changes nothing, paying 40 out of 100 succeeds and leaves 60. -/
theorem c9_pay_guarded_witness :
    (init_player "A").pay 140 = (false, init_player "A")
    ∧ (init_player "A").pay 40 = (true, { init_player "A" with cash := 60 }) := by
  constructor
  · exact (c9_pay_guarded (init_player "A") 140).2.2 (by norm_num [init_player])
  · have h := (c9_pay_guarded (init_player "A") 40).2.1 (by norm_num [init_player])
    rw [h]
    norm_num [init_player]

/-- C8: taking VC Funding (the second entry of the financing list)
sets `vc_funding_used` and raises `equity_dilution` by exactly 0.10,
and every option offered on a financing tile to a player whose
`vc_funding_used` flag is set has a name other than "VC Funding" —
in particular the VC Funding option itself is excluded, so it cannot
be taken twice. -/
theorem c8_vc_funding (p : Player) (amount : ℚ) (current_round : ℕ) :
    ((p.add_financing (financing_options.getD 1 default_financing) amount).vc_funding_used = true
      ∧ (p.add_financing (financing_options.getD 1 default_financing) amount).equity_dilution
          = p.equity_dilution + 0.10)
    ∧ (p.vc_funding_used = true →
        (∀ f ∈ available_options p current_round, f.name ≠ "VC Funding")
        ∧ financing_options.getD 1 default_financing ∉ available_options p current_round) := by
  constructor
  · have hopt : financing_options.getD 1 default_financing
        = ⟨"VC Funding", "Raise 40M but lose 10 percent NPV", 40, "Once per game",
           "10 percent NPV dilution"⟩ := rfl
    rw [hopt]
    unfold Player.add_financing
    have h1 : ("VC Funding" : String) ≠ "Debt" := by decide
    simp [h1]
  · intro hused
    have hall : ∀ f ∈ available_options p current_round, f.name ≠ "VC Funding" := by
      intro f hf hname
      rcases List.mem_filter.mp hf with ⟨_, hcond⟩
      rw [hname, hused] at hcond
      simp at hcond
    refine ⟨hall, fun hmem => ?_⟩
    exact hall _ hmem rfl

/-- Witness for C8: a player who already used VC funding sees no
"VC Funding" entry among the available financing options, and a fresh
VC financing on any player sets the flag. -/
theorem c8_vc_funding_witness :
    ((init_player "A").add_financing (financing_options.getD 1 default_financing) 40).vc_funding_used = true
    ∧ financing_options.getD 1 default_financing
        ∉ available_options { init_player "A" with vc_funding_used := true } 1 :=
  ⟨(c8_vc_funding (init_player "A") 40 1).1.1,
   ((c8_vc_funding { init_player "A" with vc_funding_used := true } 0 1).2 rfl).2⟩

/-- Applies the Equity financing option (the third entry of the
financing list) `n` times in a row, each time raising `amount`. -/
def apply_equity_n (p : Player) (amount : ℚ) : ℕ → Player
  | 0 => p
  | n + 1 => (apply_equity_n p amount n).add_financing
      (financing_options.getD 2 default_financing) amount

/-- C10 (amended): `equity_dilution` never decreases — every financing
adds exactly 0.10 (VC Funding), 0.20 (Equity) or 0 to it, and the other
player mutators leave it untouched; `n` Equity uses add `n × 0.20`, so
five or more uses from a fresh player drive it to at least 1.0; once
`equity_dilution ≥ 1` the factor `(1 − equity_dilution)` is ≤ 0 and
the total NPV of any portfolio with non-negative remaining discounted
cash flows is ≤ 0, strictly negative when the dilution exceeds 1 and
the portfolio value is strictly positive (at exactly 1.0 the total is
0, not negative). -/
theorem c10_dilution_unbounded :
    (∀ (p : Player) (f : FinancingOption) (amount : ℚ),
        (p.add_financing f amount).equity_dilution
          = p.equity_dilution
            + (if f.name = "VC Funding" then 0.10 else if f.name = "Equity" then 0.20 else 0)
        ∧ p.equity_dilution ≤ (p.add_financing f amount).equity_dilution)
    ∧ (∀ (p : Player) (amount : ℚ),
        (p.pay amount).2.equity_dilution = p.equity_dilution
        ∧ (p.receive amount).equity_dilution = p.equity_dilution
        ∧ (p.add_users amount).equity_dilution = p.equity_dilution
        ∧ (p.lose_users amount).equity_dilution = p.equity_dilution)
    ∧ (∀ (p : Player) (store : List Project),
        ((p.collect_project_revenues store).2).equity_dilution = p.equity_dilution)
    ∧ (∀ (p : Player) (amount : ℚ) (n : ℕ),
        (apply_equity_n p amount n).equity_dilution = p.equity_dilution + (n : ℚ) * 0.20)
    ∧ (∀ (store : List Project) (p : Player) (current_round : ℕ),
        1 ≤ p.equity_dilution → 0 ≤ base_npv_sum store p current_round →
        p.calculate_total_npv store current_round ≤ 0)
    ∧ (∀ (store : List Project) (p : Player) (current_round : ℕ),
        1 < p.equity_dilution → 0 < base_npv_sum store p current_round →
        p.calculate_total_npv store current_round < 0) := by
  have hadd : ∀ (p : Player) (f : FinancingOption) (amount : ℚ),
      (p.add_financing f amount).equity_dilution
        = p.equity_dilution
          + (if f.name = "VC Funding" then 0.10 else if f.name = "Equity" then 0.20 else 0) := by
    intro p f amount
    unfold Player.add_financing
    have h1 : ("Debt" : String) ≠ "VC Funding" := by decide
    have h2 : ("Debt" : String) ≠ "Equity" := by decide
    have h3 : ("VC Funding" : String) ≠ "Equity" := by decide
    by_cases ha : f.name = "Debt"
    · simp [ha, h1, h2]
    · by_cases hb : f.name = "VC Funding"
      · simp [ha, hb, h3]
      · by_cases hc : f.name = "Equity"
        · simp [ha, hb, hc]
        · by_cases hd : f.name = "IPO" <;> simp [ha, hb, hc, hd]
  refine ⟨fun p f amount => ⟨hadd p f amount, ?_⟩, ?_, ?_, ?_, ?_, ?_⟩
  · rw [hadd]
    have : (0 : ℚ) ≤ (if f.name = "VC Funding" then 0.10 else if f.name = "Equity" then 0.20 else 0) := by
      split
      · norm_num
      · split <;> norm_num
    linarith
  · intro p amount
    unfold Player.pay Player.receive Player.add_users Player.lose_users Player.can_afford
    split <;> simp
  · intro p store
    unfold Player.collect_project_revenues
    simp
  · intro p amount n
    induction n with
    | zero => simp [apply_equity_n]
    | succ n ih =>
      have hopt : (financing_options.getD 2 default_financing).name = "Equity" := rfl
      rw [apply_equity_n, hadd, ih, hopt]
      have h1 : ("Equity" : String) ≠ "VC Funding" := by decide
      simp [h1]
      ring
  · intro store p current_round h1 hS
    rw [total_npv_eq]
    have hfac : base_npv_sum store p current_round * (1 - p.equity_dilution) ≤ 0 :=
      mul_nonpos_of_nonneg_of_nonpos hS (by linarith)
    by_cases hipo : p.ipo_done <;> simp [hipo] <;> nlinarith
  · intro store p current_round h1 hS
    rw [total_npv_eq]
    have hfac : base_npv_sum store p current_round * (1 - p.equity_dilution) < 0 :=
      mul_neg_of_pos_of_neg hS (by linarith)
    by_cases hipo : p.ipo_done <;> simp [hipo] <;> nlinarith

/-- Witness for C10 (amended): five Equity financings on a fresh player
give a dilution of exactly 1, and a dilution of 1 with an empty
portfolio gives a total NPV ≤ 0. -/
theorem c10_dilution_unbounded_witness :
    (apply_equity_n (init_player "A") 60 5).equity_dilution = 1
    ∧ ({ init_player "A" with equity_dilution := 1 } : Player).calculate_total_npv
        finopoly_projects 1 ≤ 0 := by
  constructor
  · rw [c10_dilution_unbounded.2.2.2.1 (init_player "A") 60 5]
    norm_num [init_player]
  · exact c10_dilution_unbounded.2.2.2.2.1 finopoly_projects _ 1 (by norm_num [init_player])
      (by norm_num [base_npv_sum, init_player])

/-- The project store after the first project card has been bought by
player "A" in round 1. -/
def c10_store : List Project :=
  finopoly_projects.set 0
    { finopoly_projects.getD 0 default_project with owner := some "A", purchase_round := some 1 }

/-- A player holding that project after exactly five Equity
financings. -/
def c10_player : Player := apply_equity_n { init_player "A" with projects := [0] } 60 5

/-- Counterexample to C10 as stated: after exactly five Equity
financings the dilution is exactly 1.0 and the total NPV of a portfolio
with strictly positive remaining discounted cash flows is 0 — not
negative, as the claim asserts for "five or more" uses. -/
theorem c10_counterexample :
    ¬ (∀ (store : List Project) (p : Player) (current_round : ℕ),
         1 ≤ p.equity_dilution → 0 < base_npv_sum store p current_round →
         p.calculate_total_npv store current_round < 0) := by
  intro h
  have hplayer : c10_player
      = ⟨"A", 100, 1, 0, [0],
         [("Equity", 60), ("Equity", 60), ("Equity", 60), ("Equity", 60), ("Equity", 60)],
         0, 1, false, false, false⟩ := by
    norm_num [c10_player, apply_equity_n, Player.add_financing, init_player,
      financing_options, default_financing, str_equity_ne_debt, str_equity_ne_vc]
  have hdil : c10_player.equity_dilution = 1 := by rw [hplayer]
  have hproj : c10_player.projects = [0] := by rw [hplayer]
  have hS : base_npv_sum c10_store c10_player 1
      = ∑ t in Finset.Icc 1 3, (20 : ℚ) / (1 + 0.10) ^ t := by
    rw [base_npv_sum, hproj]
    norm_num [project_remaining_value, c10_store, finopoly_projects, default_project,
      show Int.toNat 3 = 3 from rfl]
  have hSpos : 0 < base_npv_sum c10_store c10_player 1 := by
    rw [hS, show Finset.Icc (1:ℕ) 3 = {1, 2, 3} from rfl]
    norm_num
  have hzero : c10_player.calculate_total_npv c10_store 1 = 0 := by
    rw [total_npv_eq, hdil]
    simp
  have := h c10_store c10_player 1 (le_of_eq hdil.symm) hSpos
  rw [hzero] at this
  exact absurd this (by norm_num)

/-- Modelled from the words of claim C1, for comparison with the
source's `end_game_score`: the strategic bonus scaled by 0.2 twice,
a net weight of 0.04 on the raw bonus. -/
def c1_claimed_score (store : List Project) (p : Player) (current_round : ℕ) : ℚ :=
  0.4 * p.calculate_total_npv store current_round + 0.3 * p.users + 0.1 * p.cash
    + 0.2 * (0.2 * ((if p.ipo_done then (10 : ℚ) else 0) + 2 * (p.projects.length : ℚ)))

/-- Counterexample to C1 as stated: for a player owning one project,
the source's score applies weight 0.2 to the raw strategic bonus
(10.7 in the instance below), not the claimed net 0.04 (10.38) — the
bonus is scaled by 0.2 once, not twice. -/
theorem c1_counterexample :
    ¬ (∀ (store : List Project) (p : Player) (current_round : ℕ),
         end_game_score store p current_round = c1_claimed_score store p current_round) := by
  intro h
  have hc := h finopoly_projects { init_player "A" with projects := [0] } 6
  have hnpv : ({ init_player "A" with projects := [0] } : Player).calculate_total_npv
      finopoly_projects 6 = 0 := by
    rw [total_npv_eq]
    norm_num [base_npv_sum, project_remaining_value, init_player,
      finopoly_projects, default_project]
  rw [end_game_score, c1_claimed_score, hnpv] at hc
  norm_num [init_player] at hc

/-- C1 (amended): each surviving player's final score is
`0.4×NPV + 0.3×users + 0.1×cash + 0.2×strategic_bonus` with
`strategic_bonus = (10 if IPO done else 0) + 2×(owned projects)` scaled
by 0.2 exactly once (net weight 0.2 on the raw bonus, not 0.04);
players are ranked in descending order of total score and the head of
the ranking — the declared winner — scores at least as much as every
player. -/
theorem c1_scoring_amended (store : List Project) (players : List Player) (current_round : ℕ) :
    (∀ p ∈ players, end_game_score store p current_round
        = 0.4 * p.calculate_total_npv store current_round + 0.3 * p.users + 0.1 * p.cash
          + 0.2 * ((if p.ipo_done then (10 : ℚ) else 0) + 2 * (p.projects.length : ℚ)))
    ∧ (rank_players (final_scores store players current_round)).Perm
        (final_scores store players current_round)
    ∧ List.Pairwise (fun a b => b.2 ≤ a.2)
        (rank_players (final_scores store players current_round))
    ∧ (∀ w tl, rank_players (final_scores store players current_round) = w :: tl →
         ∀ x ∈ final_scores store players current_round, x.2 ≤ w.2)
    ∧ (players ≠ [] → rank_players (final_scores store players current_round) ≠ []) := by
  have hperm : (rank_players (final_scores store players current_round)).Perm
      (final_scores store players current_round) :=
    List.mergeSort_perm (final_scores store players current_round)
      (fun a b => decide (b.2 ≤ a.2))
  have hsorted : List.Pairwise (fun a b => b.2 ≤ a.2)
      (rank_players (final_scores store players current_round)) := by
    have hs := @List.sorted_mergeSort (Player × ℚ)
      (fun a b => decide (b.2 ≤ a.2))
      (fun a b c h1 h2 => by
        simp only [decide_eq_true_eq] at h1 h2 ⊢
        linarith)
      (fun a b => by
        simp only [Bool.or_eq_true, decide_eq_true_eq]
        exact le_total b.2 a.2)
      (final_scores store players current_round)
    exact hs.imp (fun h => of_decide_eq_true h)
  refine ⟨?_, hperm, hsorted, ?_, ?_⟩
  · intro p _
    unfold end_game_score
    ring
  · intro w tl heq x hx
    have hxr : x ∈ rank_players (final_scores store players current_round) :=
      hperm.mem_iff.mpr hx
    rw [heq] at hxr hsorted
    rcases List.mem_cons.mp hxr with rfl | hxtl
    · exact le_rfl
    · exact (List.pairwise_cons.mp hsorted).1 x hxtl
  · intro hne hnil
    have : final_scores store players current_round = [] := by
      have := hperm.length_eq
      rw [hnil] at this
      exact List.length_eq_zero.mp this.symm
    exact hne (by simpa [final_scores] using this)

/-- Witness for C1 (amended) at a concrete one-player game: the
ranking of the final scores is non-empty, so a winner exists. -/
theorem c1_scoring_amended_witness :
    rank_players (final_scores finopoly_projects [init_player "A"] 6) ≠ [] :=
  (c1_scoring_amended finopoly_projects [init_player "A"] 6).2.2.2.2 (by simp)

/-! ### The end-of-round interest pass -/

/-- The amended description of the interest pass: each player with
positive debt is charged 6 percent interest when affordable and is
removed otherwise — and a removal makes the pass skip the immediately
following player entirely, because the Python loop removes from the
list it is iterating over. -/
def end_of_round_spec : List Player → List Player
  | [] => []
  | p :: rest =>
    if 0 < p.debt then
      if p.debt * 0.06 ≤ p.cash then
        { p with cash := p.cash - p.debt * 0.06 } :: end_of_round_spec rest
      else
        match rest with
        | [] => []
        | q :: rest' => q :: end_of_round_spec rest'
    else p :: end_of_round_spec rest

/-- The 6 percent interest charge applied to a single player with
positive debt; the identity otherwise. -/
def charge_interest (p : Player) : Player :=
  if 0 < p.debt then { p with cash := p.cash - p.debt * 0.06 } else p

theorem end_of_round_spec_cons (p : Player) (rest : List Player) :
    end_of_round_spec (p :: rest)
      = if 0 < p.debt then
          if p.debt * 0.06 ≤ p.cash then
            { p with cash := p.cash - p.debt * 0.06 } :: end_of_round_spec rest
          else
            match rest with
            | [] => []
            | q :: rest' => q :: end_of_round_spec rest'
        else p :: end_of_round_spec rest := by
  cases rest with
  | nil => simp only [end_of_round_spec]
  | cons q rest' => simp only [end_of_round_spec]

theorem list_get?_append_length (l₁ l₂ : List Player) :
    (l₁ ++ l₂).get? l₁.length = l₂.head? := by
  induction l₁ with
  | nil => cases l₂ <;> rfl
  | cons a l₁ ih => simpa using ih

theorem list_set_append_length (l₁ : List Player) (a b : Player) (l₂ : List Player) :
    (l₁ ++ a :: l₂).set l₁.length b = l₁ ++ b :: l₂ := by
  induction l₁ with
  | nil => rfl
  | cons c l₁ ih => simp [List.set, ih]

theorem list_eraseIdx_append_length (l₁ : List Player) (a : Player) (l₂ : List Player) :
    (l₁ ++ a :: l₂).eraseIdx l₁.length = l₁ ++ l₂ := by
  induction l₁ with
  | nil => rfl
  | cons c l₁ ih => simp [List.eraseIdx, ih]

theorem interest_pass_stop (fuel : ℕ) (ps : List Player) (i : ℕ) (h : ps.length ≤ i) :
    interest_pass fuel ps i = ps := by
  cases fuel with
  | zero => rfl
  | succ fuel =>
    rw [interest_pass]
    rw [List.get?_eq_none.mpr h]

theorem interest_pass_spec : ∀ (fuel : ℕ) (done rest : List Player),
    rest.length ≤ fuel →
    interest_pass fuel (done ++ rest) done.length = done ++ end_of_round_spec rest := by
  intro fuel
  induction fuel with
  | zero =>
    intro done rest hlen
    have : rest = [] := List.length_eq_zero.mp (Nat.le_zero.mp hlen)
    subst this
    simp [interest_pass, end_of_round_spec]
  | succ fuel ih =>
    intro done rest hlen
    cases rest with
    | nil =>
      simp [interest_pass_stop, end_of_round_spec]
    | cons p rest =>
      rw [interest_pass, list_get?_append_length]
      simp only [List.head?]
      by_cases hd : 0 < p.debt
      · by_cases haff' : p.debt * 0.06 ≤ p.cash
        · have haff : p.can_afford (p.debt * 0.06) = true := by
            simp [Player.can_afford, haff']
          rw [if_pos hd, if_pos haff, list_set_append_length]
          have h2 := ih (done ++ [{ p with cash := p.cash - p.debt * 0.06 }]) rest
            (by simp only [List.length_cons] at hlen; omega)
          simp only [List.append_assoc, List.cons_append, List.nil_append,
            List.length_append, List.length_cons, List.length_nil] at h2
          rw [show done.length + 1 = done.length + (0 + 1) from by omega, h2,
            end_of_round_spec_cons, if_pos hd, if_pos haff']
        · have haff : ¬ p.can_afford (p.debt * 0.06) = true := by
            simp [Player.can_afford, haff']
          rw [if_pos hd, if_neg haff, list_eraseIdx_append_length]
          cases rest with
          | nil =>
            rw [List.append_nil, interest_pass_stop fuel done (done.length + 1) (by omega),
              end_of_round_spec_cons, if_pos hd, if_neg haff']
            simp
          | cons q rest' =>
            have h2 := ih (done ++ [q]) rest'
              (by simp only [List.length_cons] at hlen; omega)
            simp only [List.append_assoc, List.cons_append, List.nil_append,
              List.length_append, List.length_cons, List.length_nil] at h2
            rw [show done.length + 1 = done.length + (0 + 1) from by omega, h2,
              end_of_round_spec_cons, if_pos hd, if_neg haff']
      · rw [if_neg hd]
        have h2 := ih (done ++ [p]) rest (by simp only [List.length_cons] at hlen; omega)
        simp only [List.append_assoc, List.cons_append, List.nil_append,
          List.length_append, List.length_cons, List.length_nil] at h2
        rw [show done.length + 1 = done.length + (0 + 1) from by omega, h2,
          end_of_round_spec_cons, if_neg hd]

/-- The index-juggling interest loop of the source equals the direct
recursive description (which makes the skip-after-removal behaviour
explicit). -/
theorem end_of_round_players_eq_spec (ps : List Player) :
    handle_end_of_round_players ps = end_of_round_spec ps := by
  have h := interest_pass_spec ps.length [] ps le_rfl
  simpa [handle_end_of_round_players] using h

/-- A player who owes 50 of debt but holds only 1 of cash: the 6
percent interest of 3 is unaffordable. -/
def c4_player_a : Player := { init_player "A" with cash := 1, debt := 50 }

/-- A player who owes 50 of debt and could easily pay the interest. -/
def c4_player_b : Player := { init_player "B" with cash := 100, debt := 50 }

/-- C4 (code bug witness): with players `[A, B]` both carrying debt 50,
A's interest (6 percent of 50, i.e. 3) exceeds A's cash of 1, so A is
removed — and the removal makes the loop skip B entirely: B survives
the round with cash still 100 (not 97) and is never bankruptcy-checked,
although B's debt is positive.  The claim that every player with
positive debt is charged is the source's evident intent; the
remove-while-iterating loop violates it. -/
theorem c4_interest_charge_eval :
    handle_end_of_round_players [c4_player_a, c4_player_b] = [c4_player_b]
    ∧ c4_player_a.debt * 0.06 = 3
    ∧ 0 < c4_player_b.debt ∧ c4_player_b.cash = 100 := by
  refine ⟨?_, by norm_num [c4_player_a, init_player], by norm_num [c4_player_b, init_player], rfl⟩
  norm_num [handle_end_of_round_players, interest_pass, c4_player_a, c4_player_b,
    init_player, Player.can_afford]

/-- C5: whenever the interest pass eliminates the player at some index
(here: after an affordable prefix `pre`, player `a` with positive debt
cannot pay), the immediately following player `b` is skipped by that
round's pass: `b` reappears in the output verbatim — charged no
interest and not checked for bankruptcy, whatever `b`'s debt — while
the pass resumes with the players after `b`. -/
theorem c5_removal_skips_successor (pre : List Player) (a b : Player) (post : List Player)
    (hpre : ∀ p ∈ pre, 0 < p.debt → p.debt * 0.06 ≤ p.cash)
    (ha : 0 < a.debt) (hcash : a.cash < a.debt * 0.06) :
    handle_end_of_round_players (pre ++ a :: b :: post)
      = pre.map charge_interest ++ b :: end_of_round_spec post := by
  rw [end_of_round_players_eq_spec]
  induction pre with
  | nil =>
    simp only [List.nil_append, List.map_nil]
    rw [end_of_round_spec_cons, if_pos ha, if_neg (not_le.mpr hcash)]
  | cons p pre ih =>
    have hp := hpre p (List.mem_cons_self p pre)
    have hrest : ∀ q ∈ pre, 0 < q.debt → q.debt * 0.06 ≤ q.cash :=
      fun q hq => hpre q (List.mem_cons_of_mem p hq)
    have ih' := ih hrest
    simp only [List.cons_append, List.map_cons]
    by_cases hd : 0 < p.debt
    · rw [end_of_round_spec_cons, if_pos hd, if_pos (hp hd), ih',
        charge_interest, if_pos hd]
    · rw [end_of_round_spec_cons, if_neg hd, ih', charge_interest, if_neg hd]

/-- Witness for C5 at concrete players: the head player (debt 50,
cash 2) cannot pay the interest of 3 and is removed, and the second
player (debt 10, cash 0 — itself bankrupt-eligible) is skipped and
survives unchanged. -/
theorem c5_removal_skips_successor_witness :
    0 < ({ init_player "A" with cash := 2, debt := 50 } : Player).debt
    ∧ ({ init_player "A" with cash := 2, debt := 50 } : Player).cash
        < ({ init_player "A" with cash := 2, debt := 50 } : Player).debt * 0.06
    ∧ handle_end_of_round_players
        [{ init_player "A" with cash := 2, debt := 50 },
         { init_player "B" with cash := 0, debt := 10 }]
      = [{ init_player "B" with cash := 0, debt := 10 }] := by
  refine ⟨by norm_num [init_player], by norm_num [init_player], ?_⟩
  have h := c5_removal_skips_successor []
    { init_player "A" with cash := 2, debt := 50 }
    { init_player "B" with cash := 0, debt := 10 } []
    (by intro p hp; cases hp) (by norm_num [init_player]) (by norm_num [init_player])
  simpa [end_of_round_spec] using h

/-- C3 (amended): the end-of-round bankruptcy check removes only
players with positive debt, so a player with no debt — whatever their
cash, including negative cash picked up from events or from typed-in
negative financing amounts — survives the end-of-round processing
unchanged and starts the next round still in the players list. -/
theorem c3_no_debt_player_survives (ps : List Player) (p : Player)
    (hp : p ∈ ps) (hdebt : p.debt ≤ 0) :
    p ∈ handle_end_of_round_players ps := by
  rw [end_of_round_players_eq_spec]
  have key : ∀ (n : ℕ) (l : List Player), l.length ≤ n →
      p ∈ l → p ∈ end_of_round_spec l := by
    intro n
    induction n with
    | zero =>
      intro l hlen hmem
      have : l = [] := List.length_eq_zero.mp (Nat.le_zero.mp hlen)
      subst this
      cases hmem
    | succ n ih =>
      intro l hlen hmem
      cases l with
      | nil => cases hmem
      | cons q rest =>
        rw [end_of_round_spec_cons]
        by_cases hq : 0 < q.debt
        · rcases List.mem_cons.mp hmem with rfl | hrest
          · exact absurd hq (not_lt.mpr hdebt)
          · by_cases haff : q.debt * 0.06 ≤ q.cash
            · rw [if_pos hq, if_pos haff]
              exact List.mem_cons_of_mem _
                (ih rest (by simp only [List.length_cons] at hlen; omega) hrest)
            · rw [if_pos hq, if_neg haff]
              cases rest with
              | nil => cases hrest
              | cons r rest' =>
                rcases List.mem_cons.mp hrest with rfl | hrest'
                · exact List.mem_cons_self p (end_of_round_spec rest')
                · exact List.mem_cons_of_mem _
                    (ih rest' (by simp only [List.length_cons] at hlen; omega) hrest')
        · rw [if_neg hq]
          rcases List.mem_cons.mp hmem with rfl | hrest
          · exact List.mem_cons_self p (end_of_round_spec rest)
          · exact List.mem_cons_of_mem _
              (ih rest (by simp only [List.length_cons] at hlen; omega) hrest)
  exact key ps.length ps le_rfl hp

/-- Witness for C3 (amended): a debt-free player with cash −5 survives
the end-of-round processing. -/
theorem c3_no_debt_player_survives_witness :
    ({ init_player "A" with cash := -5 } : Player)
      ∈ handle_end_of_round_players [{ init_player "A" with cash := -5 }] :=
  c3_no_debt_player_survives _ _ (List.mem_singleton.mpr rfl) (by norm_num [init_player])

/-! ### Board structure (C7) -/

/-- Whether a board slot holds a tile of the given category. -/
def tile_type_is (o : Option Tile) (ty : TileType) : Bool :=
  match o with
  | some t => decide (t.tile_type = ty)
  | none => false

theorem write_tiles_length (ws : List (ℕ × Tile)) (b : List (Option Tile)) :
    (write_tiles b ws).length = b.length := by
  induction ws generalizing b with
  | nil => rfl
  | cons w ws ih =>
    rw [write_tiles, List.foldl_cons]
    rw [show List.foldl (fun b w => b.set w.1 (some w.2)) (b.set w.1 (some w.2)) ws
        = write_tiles (b.set w.1 (some w.2)) ws from rfl]
    rw [ih, List.length_set]

theorem write_tiles_append (b : List (Option Tile)) (ws₁ ws₂ : List (ℕ × Tile)) :
    write_tiles b (ws₁ ++ ws₂) = write_tiles (write_tiles b ws₁) ws₂ :=
  List.foldl_append _ _ _ _

theorem write_tiles_get?_not_mem (ws : List (ℕ × Tile)) (b : List (Option Tile)) (j : ℕ)
    (h : j ∉ ws.map Prod.fst) :
    (write_tiles b ws).get? j = b.get? j := by
  induction ws generalizing b with
  | nil => rfl
  | cons w ws ih =>
    simp only [List.map_cons, List.mem_cons, not_or] at h
    rw [write_tiles, List.foldl_cons]
    rw [show List.foldl (fun b w => b.set w.1 (some w.2)) (b.set w.1 (some w.2)) ws
        = write_tiles (b.set w.1 (some w.2)) ws from rfl]
    rw [ih _ h.2, List.get?_set_ne _ _ (fun he => h.1 he.symm)]

theorem write_tiles_get?_mem (ws : List (ℕ × Tile)) (b : List (Option Tile)) (w : ℕ × Tile)
    (hnd : (ws.map Prod.fst).Nodup) (hw : w ∈ ws) (hlt : w.1 < b.length) :
    (write_tiles b ws).get? w.1 = some (some w.2) := by
  induction ws generalizing b with
  | nil => cases hw
  | cons v ws ih =>
    simp only [List.map_cons, List.nodup_cons] at hnd
    rw [write_tiles, List.foldl_cons]
    rw [show List.foldl (fun b w => b.set w.1 (some w.2)) (b.set v.1 (some v.2)) ws
        = write_tiles (b.set v.1 (some v.2)) ws from rfl]
    rcases List.mem_cons.mp hw with rfl | hw'
    · rw [write_tiles_get?_not_mem _ _ _ hnd.1]
      rw [List.get?_set_eq]
      have : b.get? w.1 = some (b.get ⟨w.1, hlt⟩) := List.get?_eq_get hlt
      rw [this]
      rfl
    · exact ih (b.set v.1 (some v.2)) hnd.2 hw' (by simpa [List.length_set] using hlt)

theorem replicate_get? (n j : ℕ) (hj : j < n) :
    (List.replicate n (none : Option Tile)).get? j = some none := by
  induction n generalizing j with
  | zero => omega
  | succ n ih =>
    cases j with
    | zero => rfl
    | succ j => simpa [List.replicate] using ih j (by omega)

theorem countP_set_of_none (P : Option Tile → Bool) (hP : P none = false) :
    ∀ (b : List (Option Tile)) (j : ℕ) (a : Option Tile), b.get? j = some none →
      (b.set j a).countP P = b.countP P + (if P a then 1 else 0) := by
  intro b
  induction b with
  | nil => intro j a h; cases h
  | cons x b ih =>
    intro j a h
    cases j with
    | zero =>
      have hx : x = none := by simpa using h
      subst hx
      simp [List.set, List.countP_cons, hP]
    | succ j =>
      have h' : b.get? j = some none := by simpa using h
      simp [List.set, List.countP_cons, ih j a h']
      omega

theorem write_tiles_countP (P : Option Tile → Bool) (hP : P none = false) :
    ∀ (ws : List (ℕ × Tile)) (b : List (Option Tile)),
      (ws.map Prod.fst).Nodup → (∀ w ∈ ws, b.get? w.1 = some none) →
      (write_tiles b ws).countP P
        = b.countP P + (ws.map (fun w => some w.2)).countP P := by
  intro ws
  induction ws with
  | nil => intro b _ _; simp [write_tiles]
  | cons w ws ih =>
    intro b hnd hnone
    simp only [List.map_cons, List.nodup_cons] at hnd
    rw [write_tiles, List.foldl_cons]
    rw [show List.foldl (fun b w => b.set w.1 (some w.2)) (b.set w.1 (some w.2)) ws
        = write_tiles (b.set w.1 (some w.2)) ws from rfl]
    have hb' : ∀ v ∈ ws, (b.set w.1 (some w.2)).get? v.1 = some none := by
      intro v hv
      rw [List.get?_set_ne _ _ (fun he => hnd.1 (by rw [he]; exact List.mem_map_of_mem Prod.fst hv))]
      exact hnone v (List.mem_cons_of_mem w hv)
    rw [ih _ hnd.2 hb', countP_set_of_none P hP b w.1 (some w.2)
      (hnone w (List.mem_cons_self w ws))]
    simp only [List.map_cons, List.countP_cons]
    omega

/-- The full assignment list of `create_board` for a twenty-position
shuffle ending in the two special positions. -/
def board_writes (positions : List ℕ) (sp0 sp1 : ℕ) : List (ℕ × Tile) :=
  investment_writes positions ++ financing_writes positions ++ event_writes positions
    ++ neutral_writes positions ++ [(sp0, special_tile_ipo sp0), (sp1, special_tile_strategy sp1)]

theorem create_board_eq_writes (positions : List ℕ) (sp0 sp1 : ℕ)
    (hsp : positions.drop 18 = [sp0, sp1]) :
    create_board positions
      = some (write_tiles (List.replicate 20 none) (board_writes positions sp0 sp1)) := by
  unfold create_board
  rw [hsp]
  simp only [board_writes, write_tiles_append]
  rfl

theorem board_writes_map_fst (positions : List ℕ) (sp0 sp1 : ℕ)
    (hsp : positions.drop 18 = [sp0, sp1]) :
    (board_writes positions sp0 sp1).map Prod.fst = positions := by
  have hinv : (investment_writes positions).map Prod.fst = positions.take 8 := by
    simp only [investment_writes, List.map_map]
    exact List.enum_map_snd (positions.take 8)
  have hfin : (financing_writes positions).map Prod.fst = (positions.drop 8).take 2 := by
    simp [financing_writes, List.map_map, Function.comp_def]
  have hev : (event_writes positions).map Prod.fst = (positions.drop 10).take 4 := by
    simp [event_writes, List.map_map, Function.comp_def]
  have hneu : (neutral_writes positions).map Prod.fst = (positions.drop 14).take 4 := by
    simp [neutral_writes, List.map_map, Function.comp_def]
  have hd10 : (positions.drop 8).drop 2 = positions.drop 10 := by
    rw [List.drop_drop]
  have hd14 : (positions.drop 10).drop 4 = positions.drop 14 := by
    rw [List.drop_drop]
  have hd18 : (positions.drop 14).drop 4 = positions.drop 18 := by
    rw [List.drop_drop]
  simp only [board_writes, List.map_append, hinv, hfin, hev, hneu, List.map_cons,
    List.map_nil, List.append_assoc]
  calc positions.take 8 ++ ((positions.drop 8).take 2 ++ ((positions.drop 10).take 4
        ++ ((positions.drop 14).take 4 ++ [sp0, sp1])))
      = positions.take 8 ++ ((positions.drop 8).take 2 ++ ((positions.drop 10).take 4
        ++ ((positions.drop 14).take 4 ++ (positions.drop 14).drop 4))) := by
        rw [hd18, hsp]
    _ = positions.take 8 ++ ((positions.drop 8).take 2 ++ ((positions.drop 10).take 4
        ++ positions.drop 14)) := by rw [List.take_append_drop]
    _ = positions.take 8 ++ ((positions.drop 8).take 2 ++ ((positions.drop 10).take 4
        ++ (positions.drop 10).drop 4)) := by rw [hd14]
    _ = positions.take 8 ++ ((positions.drop 8).take 2 ++ positions.drop 10) := by
        rw [List.take_append_drop]
    _ = positions.take 8 ++ ((positions.drop 8).take 2 ++ (positions.drop 8).drop 2) := by
        rw [hd10]
    _ = positions.take 8 ++ positions.drop 8 := by rw [List.take_append_drop]
    _ = positions := List.take_append_drop 8 positions

theorem countP_tiles_same (s : List (ℕ × Tile)) (ty : TileType)
    (h : ∀ w ∈ s, w.2.tile_type = ty) :
    (s.map (fun w => some w.2)).countP (fun o => tile_type_is o ty) = s.length := by
  have hall : ∀ a ∈ s.map (fun w => some w.2), (fun o => tile_type_is o ty) a = true := by
    intro a ha
    obtain ⟨w, hw, rfl⟩ := List.mem_map.mp ha
    simp [tile_type_is, h w hw]
  rw [List.countP_eq_length.mpr hall, List.length_map]

theorem countP_tiles_other (s : List (ℕ × Tile)) (ty ty' : TileType)
    (h : ∀ w ∈ s, w.2.tile_type = ty) (hne : ty ≠ ty') :
    (s.map (fun w => some w.2)).countP (fun o => tile_type_is o ty') = 0 := by
  apply List.countP_eq_zero.mpr
  intro a ha
  obtain ⟨w, hw, rfl⟩ := List.mem_map.mp ha
  simp [tile_type_is, h w hw, hne]

theorem get?_eq_some_getD (l : List ℕ) (i : ℕ) (h : i < l.length) :
    l.get? i = some (l.getD i 0) := by
  rw [List.getD_eq_get?, List.get?_eq_get h]
  rfl

/-- C7: for every shuffle of the twenty positions, `create_board`
succeeds and fills all twenty board slots, with exactly 8 Investment,
2 Financing, 4 Event, 4 Neutral and 2 Special tiles, the shuffled
positions all distinct (no overlaps, no empty slots), and Investment
tile number `i` carrying the project at index
`i % len(projects)` of the fixed project list. -/
theorem c7_board_structure (positions : List ℕ)
    (hperm : positions.Perm (List.range 20)) :
    ∃ b, create_board positions = some b
      ∧ positions.Nodup
      ∧ b.length = 20
      ∧ (∀ slot, slot < 20 → ∃ t, b.get? slot = some (some t))
      ∧ b.countP (fun o => tile_type_is o TileType.Investment) = 8
      ∧ b.countP (fun o => tile_type_is o TileType.Financing) = 2
      ∧ b.countP (fun o => tile_type_is o TileType.Event) = 4
      ∧ b.countP (fun o => tile_type_is o TileType.Neutral) = 4
      ∧ b.countP (fun o => tile_type_is o TileType.Special) = 2
      ∧ ∀ i, i < 8 → ∃ t, b.get? (positions.getD i 0) = some (some t)
          ∧ t.tile_type = TileType.Investment
          ∧ t.action = some (TileAction.proj (i % finopoly_projects.length)) := by
  have hlen : positions.length = 20 := by simpa using hperm.length_eq
  have hnodup : positions.Nodup := hperm.nodup_iff.mpr (List.nodup_range 20)
  have hmemlt : ∀ j ∈ positions, j < 20 := fun j hj => List.mem_range.mp (hperm.subset hj)
  have hdlen : (positions.drop 18).length = 2 := by rw [List.length_drop, hlen]
  obtain ⟨sp0, sp1, hsp⟩ := List.length_eq_two.mp hdlen
  have hfst : (board_writes positions sp0 sp1).map Prod.fst = positions :=
    board_writes_map_fst positions sp0 sp1 hsp
  have hnd : ((board_writes positions sp0 sp1).map Prod.fst).Nodup := by
    rw [hfst]; exact hnodup
  have hwlt : ∀ w ∈ board_writes positions sp0 sp1, w.1 < 20 := by
    intro w hw
    apply hmemlt w.1
    rw [← hfst]
    exact List.mem_map_of_mem Prod.fst hw
  have hcb : create_board positions
      = some (write_tiles (List.replicate 20 none) (board_writes positions sp0 sp1)) :=
    create_board_eq_writes positions sp0 sp1 hsp
  have hblen : (write_tiles (List.replicate 20 none) (board_writes positions sp0 sp1)).length
      = 20 := by
    rw [write_tiles_length, List.length_replicate]
  have hfill : ∀ w ∈ board_writes positions sp0 sp1,
      (write_tiles (List.replicate 20 none) (board_writes positions sp0 sp1)).get? w.1
        = some (some w.2) := by
    intro w hw
    exact write_tiles_get?_mem _ _ w hnd hw (by rw [List.length_replicate]; exact hwlt w hw)
  have hcount : ∀ P : Option Tile → Bool, P none = false →
      (write_tiles (List.replicate 20 none) (board_writes positions sp0 sp1)).countP P
        = ((board_writes positions sp0 sp1).map (fun w => some w.2)).countP P := by
    intro P hP
    rw [write_tiles_countP P hP _ _ hnd
      (fun w hw => replicate_get? 20 w.1 (hwlt w hw))]
    rw [List.countP_eq_zero.mpr (fun o ho => by
      rw [List.eq_of_mem_replicate ho]
      simp [hP])]
    rw [Nat.zero_add]
  have hinvty : ∀ w ∈ investment_writes positions, w.2.tile_type = TileType.Investment := by
    intro w hw
    obtain ⟨ip, _, rfl⟩ := List.mem_map.mp hw
    rfl
  have hfinty : ∀ w ∈ financing_writes positions, w.2.tile_type = TileType.Financing := by
    intro w hw
    obtain ⟨pos, _, rfl⟩ := List.mem_map.mp hw
    rfl
  have hevty : ∀ w ∈ event_writes positions, w.2.tile_type = TileType.Event := by
    intro w hw
    obtain ⟨pos, _, rfl⟩ := List.mem_map.mp hw
    rfl
  have hneuty : ∀ w ∈ neutral_writes positions, w.2.tile_type = TileType.Neutral := by
    intro w hw
    obtain ⟨pos, _, rfl⟩ := List.mem_map.mp hw
    rfl
  have hspty : ∀ w ∈ [(sp0, special_tile_ipo sp0), (sp1, special_tile_strategy sp1)],
      w.2.tile_type = TileType.Special := by
    intro w hw
    rcases List.mem_cons.mp hw with rfl | hw'
    · rfl
    · rcases List.mem_cons.mp hw' with rfl | hw''
      · rfl
      · cases hw''
  have hIlen : (investment_writes positions).length = 8 := by
    simp [investment_writes, hlen]
  have hFlen : (financing_writes positions).length = 2 := by
    simp [financing_writes, List.length_drop, hlen]
  have hElen : (event_writes positions).length = 4 := by
    simp [event_writes, List.length_drop, hlen]
  have hNlen : (neutral_writes positions).length = 4 := by
    simp [neutral_writes, List.length_drop, hlen]
  have hcounts : ∀ ty : TileType,
      ((board_writes positions sp0 sp1).map (fun w => some w.2)).countP
          (fun o => tile_type_is o ty)
        = (if TileType.Investment = ty then 8 else 0)
          + (if TileType.Financing = ty then 2 else 0)
          + (if TileType.Event = ty then 4 else 0)
          + (if TileType.Neutral = ty then 4 else 0)
          + (if TileType.Special = ty then 2 else 0) := by
    intro ty
    simp only [board_writes, List.map_append, List.countP_append]
    have hseg : ∀ (s : List (ℕ × Tile)) (ty₀ : TileType),
        (∀ w ∈ s, w.2.tile_type = ty₀) →
        (s.map (fun w => some w.2)).countP (fun o => tile_type_is o ty)
          = if ty₀ = ty then s.length else 0 := by
      intro s ty₀ hs
      by_cases he : ty₀ = ty
      · subst he
        rw [if_pos rfl]
        exact countP_tiles_same s ty₀ hs
      · rw [if_neg he, countP_tiles_other s ty₀ ty hs he]
    rw [hseg _ _ hinvty, hseg _ _ hfinty, hseg _ _ hevty, hseg _ _ hneuty, hseg _ _ hspty,
      hIlen, hFlen, hElen, hNlen]
    rfl
  refine ⟨write_tiles (List.replicate 20 none) (board_writes positions sp0 sp1),
    hcb, hnodup, hblen, ?_, ?_, ?_, ?_, ?_, ?_, ?_⟩
  · intro slot hslot
    have hsmem : slot ∈ positions := hperm.mem_iff.mpr (List.mem_range.mpr hslot)
    rw [← hfst] at hsmem
    obtain ⟨w, hw, hwfst⟩ := List.mem_map.mp hsmem
    exact ⟨w.2, hwfst ▸ hfill w hw⟩
  · rw [hcount _ rfl, hcounts]
    rfl
  · rw [hcount _ rfl, hcounts]
    rfl
  · rw [hcount _ rfl, hcounts]
    rfl
  · rw [hcount _ rfl, hcounts]
    rfl
  · rw [hcount _ rfl, hcounts]
    rfl
  · intro i hi
    have hi20 : i < positions.length := by omega
    have htake : (positions.take 8).get? i = some (positions.getD i 0) := by
      rw [List.get?_take hi]
      exact get?_eq_some_getD positions i hi20
    have henum : ((positions.take 8).enum).get? i = some (i, positions.getD i 0) := by
      rw [List.get?_enum, htake]
      rfl
    have hiw : (investment_writes positions).get? i
        = some (positions.getD i 0,
            ⟨positions.getD i 0,
             "Investment: " ++ (finopoly_projects.getD (i % finopoly_projects.length)
               default_project).name,
             TileType.Investment,
             some (TileAction.proj (i % finopoly_projects.length))⟩) := by
      rw [investment_writes, List.get?_map, henum]
      rfl
    have hmemw : (positions.getD i 0,
        (⟨positions.getD i 0,
          "Investment: " ++ (finopoly_projects.getD (i % finopoly_projects.length)
            default_project).name,
          TileType.Investment,
          some (TileAction.proj (i % finopoly_projects.length))⟩ : Tile))
        ∈ board_writes positions sp0 sp1 := by
      apply List.mem_append_left
      apply List.mem_append_left
      apply List.mem_append_left
      apply List.mem_append_left
      exact List.get?_mem hiw
    refine ⟨_, hfill _ hmemw, rfl, rfl⟩

/-- Witness for C7: the identity shuffle `range 20` is a permutation
of itself, and the theorem yields the fully structured board. -/
theorem c7_board_structure_witness :
    ∃ b, create_board (List.range 20) = some b
      ∧ (List.range 20).Nodup
      ∧ b.length = 20
      ∧ (∀ slot, slot < 20 → ∃ t, b.get? slot = some (some t))
      ∧ b.countP (fun o => tile_type_is o TileType.Investment) = 8
      ∧ b.countP (fun o => tile_type_is o TileType.Financing) = 2
      ∧ b.countP (fun o => tile_type_is o TileType.Event) = 4
      ∧ b.countP (fun o => tile_type_is o TileType.Neutral) = 4
      ∧ b.countP (fun o => tile_type_is o TileType.Special) = 2
      ∧ ∀ i, i < 8 → ∃ t, b.get? ((List.range 20).getD i 0) = some (some t)
          ∧ t.tile_type = TileType.Investment
          ∧ t.action = some (TileAction.proj (i % finopoly_projects.length)) :=
  c7_board_structure (List.range 20) (List.Perm.refl _)

/-! ### A reachable game state with negative cash (C3) -/

/-- A concrete shuffle: Investment tiles on 2–9, Financing on 1 and
10, Events on 11–14, Neutral on 15–18, the IPO tile on 19 and the
Strategy tile on 0. -/
def c3_positions : List ℕ :=
  [2, 3, 4, 5, 6, 7, 8, 9, 1, 10, 11, 12, 13, 14, 15, 16, 17, 18, 19, 0]

/-- The board `create_board` builds from that shuffle. -/
def c3_board : List (Option Tile) :=
  [some ⟨0, "Strategic Decision", TileType.Special, some (TileAction.tag "Strategy")⟩,
   some ⟨1, "Financing Opportunity", TileType.Financing, none⟩,
   some ⟨2, "Investment: Expand to Asia Market", TileType.Investment, some (TileAction.proj 0)⟩,
   some ⟨3, "Investment: Referral Program", TileType.Investment, some (TileAction.proj 1)⟩,
   some ⟨4, "Investment: Retail Partnership", TileType.Investment, some (TileAction.proj 2)⟩,
   some ⟨5, "Investment: AI Fraud Prevention", TileType.Investment, some (TileAction.proj 3)⟩,
   some ⟨6, "Investment: Product Launch", TileType.Investment, some (TileAction.proj 4)⟩,
   some ⟨7, "Investment: Mobile App Redesign", TileType.Investment, some (TileAction.proj 5)⟩,
   some ⟨8, "Investment: Blockchain Integration", TileType.Investment, some (TileAction.proj 6)⟩,
   some ⟨9, "Investment: Customer Support AI", TileType.Investment, some (TileAction.proj 7)⟩,
   some ⟨10, "Financing Opportunity", TileType.Financing, none⟩,
   some ⟨11, "Market Event", TileType.Event, none⟩,
   some ⟨12, "Market Event", TileType.Event, none⟩,
   some ⟨13, "Market Event", TileType.Event, none⟩,
   some ⟨14, "Market Event", TileType.Event, none⟩,
   some ⟨15, "Revenue Collection", TileType.Neutral, none⟩,
   some ⟨16, "Revenue Collection", TileType.Neutral, none⟩,
   some ⟨17, "Revenue Collection", TileType.Neutral, none⟩,
   some ⟨18, "Revenue Collection", TileType.Neutral, none⟩,
   some ⟨19, "IPO Opportunity", TileType.Special, some (TileAction.tag "IPO")⟩]

theorem c3_board_some : create_board c3_positions = some c3_board := by decide

def c3_g0 : Game := init_game ["A", "B", "C"] c3_board

/-- Player A rolls 1, lands on the Financing tile at position 1,
chooses option 1 (Debt) and types the amount −200: the source clamps
with `min(-200, 50) = -200`, credits −200 of cash and adds −200 of
debt. -/
def c3_turn_a : TurnInput := ⟨1, false, 1, -200, 0, false, 0, 0⟩

/-- Players B and C roll 1 onto the same Financing tile and type 0 to
skip. -/
def c3_turn_skip : TurnInput := ⟨1, false, 0, 0, 0, false, 0, 0⟩

def c3_g1 : Game := play_round c3_g0 [c3_turn_a, c3_turn_skip, c3_turn_skip]

theorem c3_turn_a_eval : play_turn c3_g0 0 c3_turn_a =
    { players :=
        [⟨"A", -100, 1, 1, [], [("Debt", -200)], -200, 0, false, false, false⟩,
         ⟨"B", 100, 1, 0, [], [], 0, 0, false, false, false⟩,
         ⟨"C", 100, 1, 0, [], [], 0, 0, false, false, false⟩],
      current_round := 1, board := c3_board, projects := finopoly_projects,
      game_over := false } := by
  norm_num [c3_g0, play_turn, set_player, handle_financing_tile,
    available_options, financing_options,
    Player.receive, Player.add_financing, Player.can_afford, init_game, init_player,
    default_player, default_financing, c3_turn_a, c3_board,
    strb_debt_vc, strb_equity_vc, strb_ipo_vc, strb_debt_ipo, strb_vc_ipo,
    strb_equity_ipo, strb_ipo_ipo, strb_vc_vc]
  exact List.cons_ne_nil _ _

theorem c3_turn_b_eval : play_turn (play_turn c3_g0 0 c3_turn_a) 1 c3_turn_skip =
    { players :=
        [⟨"A", -100, 1, 1, [], [("Debt", -200)], -200, 0, false, false, false⟩,
         ⟨"B", 100, 1, 1, [], [], 0, 0, false, false, false⟩,
         ⟨"C", 100, 1, 0, [], [], 0, 0, false, false, false⟩],
      current_round := 1, board := c3_board, projects := finopoly_projects,
      game_over := false } := by
  rw [c3_turn_a_eval]
  norm_num [play_turn, set_player, handle_financing_tile,
    available_options, financing_options, Player.can_afford,
    default_player, default_financing, c3_turn_skip, c3_board,
    strb_debt_vc, strb_equity_vc, strb_ipo_vc, strb_debt_ipo, strb_vc_ipo,
    strb_equity_ipo, strb_ipo_ipo, strb_vc_vc]

theorem c3_turn_c_eval :
    play_turn (play_turn (play_turn c3_g0 0 c3_turn_a) 1 c3_turn_skip) 2 c3_turn_skip =
    { players :=
        [⟨"A", -100, 1, 1, [], [("Debt", -200)], -200, 0, false, false, false⟩,
         ⟨"B", 100, 1, 1, [], [], 0, 0, false, false, false⟩,
         ⟨"C", 100, 1, 1, [], [], 0, 0, false, false, false⟩],
      current_round := 1, board := c3_board, projects := finopoly_projects,
      game_over := false } := by
  rw [c3_turn_b_eval]
  norm_num [play_turn, set_player, handle_financing_tile,
    available_options, financing_options, Player.can_afford,
    default_player, default_financing, c3_turn_skip, c3_board,
    strb_debt_vc, strb_equity_vc, strb_ipo_vc, strb_debt_ipo, strb_vc_ipo,
    strb_equity_ipo, strb_ipo_ipo, strb_vc_vc]

theorem c3_g1_eval : c3_g1 =
    { players :=
        [⟨"A", -100, 1, 1, [], [("Debt", -200)], -200, 0, false, false, false⟩,
         ⟨"B", 100, 1, 1, [], [], 0, 0, false, false, false⟩,
         ⟨"C", 100, 1, 1, [], [], 0, 0, false, false, false⟩],
      current_round := 2, board := c3_board, projects := finopoly_projects,
      game_over := false } := by
  have hfold : c3_g1 =
      (let g := play_turn (play_turn (play_turn c3_g0 0 c3_turn_a) 1 c3_turn_skip) 2 c3_turn_skip;
       { g with players := handle_end_of_round_players g.players,
                current_round := g.current_round + 1,
                game_over := if 5 < g.current_round + 1 then true else g.game_over }) := by
    show play_round c3_g0 [c3_turn_a, c3_turn_skip, c3_turn_skip] = _
    rw [play_round]
    rw [show c3_g0.players.length = 3 from rfl, show List.range 3 = [0, 1, 2] from rfl]
    rfl
  rw [hfold, c3_turn_c_eval]
  norm_num [handle_end_of_round_players, interest_pass]

/-- Counterexample to C3 as stated: the start-of-round no-negative-cash
invariant fails on a reachable state.  In round 1 a player may take
"Debt" financing with a typed amount of −200 (the source bounds the
entry only from above, by `min(entered, 50)`), ending the round with
cash −100 and debt −200; the end-of-round bankruptcy check ignores the
player because the debt is not positive, so round 2 starts with a
player of negative cash in the players list. -/
theorem c3_counterexample :
    ¬ (∀ g : Game, Reachable g → g.game_over = false → ∀ p ∈ g.players, 0 ≤ p.cash) := by
  intro h
  have h0 : Reachable c3_g0 :=
    Reachable.start ["A", "B", "C"] c3_positions c3_board (by norm_num) (by norm_num)
      (by decide) c3_board_some
  have hvalid : ∀ inp ∈ [c3_turn_a, c3_turn_skip, c3_turn_skip], ValidInput inp := by
    intro inp hinp
    rcases List.mem_cons.mp hinp with rfl | hinp
    · exact ⟨by decide, by decide, by decide⟩
    rcases List.mem_cons.mp hinp with rfl | hinp
    · exact ⟨by decide, by decide, by decide⟩
    rcases List.mem_cons.mp hinp with rfl | hinp
    · exact ⟨by decide, by decide, by decide⟩
    cases hinp
  have hreach : Reachable c3_g1 :=
    Reachable.step c3_g0 [c3_turn_a, c3_turn_skip, c3_turn_skip] h0 rfl (by decide)
      hvalid
  have hgo : c3_g1.game_over = false := by rw [c3_g1_eval]
  have hmem : (⟨"A", -100, 1, 1, [], [("Debt", -200)], -200, 0, false, false, false⟩ : Player)
      ∈ c3_g1.players := by
    rw [c3_g1_eval]
    exact List.mem_cons_self _ _
  have := h c3_g1 hreach hgo _ hmem
  norm_num at this

end Finopoly
